import Mathlib

/-!
Verification of the keycap mesh-repair pipeline.

Shallow embedding of the mesh post-processor in `src/utils/mesher_patch.py`
(and the identical extractor in `src/utils/safe_mesher.py`):

* `_find_boundary_loops`  → `edgeCensus`, `boundaryEdges`, `traceLoop`,
  `traceAll`, `findBoundaryLoops`
* `_fill_loop_with_fan`   → `fillLoopWithFan`
* `_mesh_shape_guarded` / `SafeMesher._mesh_shape` → `meshShape`
* the welding/assembly in `_create_3mf_mesh_patched` → `weld`, `createMesh`

Python dictionaries are modelled as an insertion-ordered key list paired
with a value function; Python sets of boundary edges are modelled as the
key list filtered in insertion order (one deterministic realisation of the
unordered iteration).  Machine floats are modelled as rationals, with
Python's `round(x, 6)` modelled as exact round-half-to-even on rationals.
The Python `while` loop of the boundary walk is modelled with an explicit
fuel parameter; the canonical `findBoundaryLoops` runs it with fuel
`(number of boundary edges) + 1`, and the termination claim is settled by
proving every larger fuel gives the same result.
-/

namespace KeycapMesh

/-- A triangle: an ordered triple of vertex indices (`tri[0], tri[1], tri[2]`). -/
abbrev Tri := ℕ × ℕ × ℕ

/-- A directed edge between two vertex indices. -/
abbrev Edge := ℕ × ℕ

/-- The reverse of a directed edge (`rev_e = (e[1], e[0])` in the source). -/
def Edge.rev (e : Edge) : Edge := (e.2, e.1)

/-- The three directed edges of a triangle, in winding order:
`[(idx[0], idx[1]), (idx[1], idx[2]), (idx[2], idx[0])]`. -/
def triEdges (t : Tri) : List Edge := [(t.1, t.2.1), (t.2.1, t.2.2), (t.2.2, t.1)]

/-- The stream of directed edge slots taken by `_find_boundary_loops`:
every triangle contributes its three directed edges in list order. -/
def edgeSlots (ts : List Tri) : List Edge := ts.flatMap triEdges

/-- The number of slots in a stream equal to a given directed edge. -/
def dirS (s : List Edge) (e : Edge) : ℕ := s.count e

/-- The number of slots in a stream referencing a given undirected edge,
i.e. equal to the edge or to its reverse. -/
def ucS (s : List Edge) (e : Edge) : ℕ := s.countP fun d => decide (d = e ∨ d = e.rev)

/-- The number of directed edge slots of a triangle list equal to `e`. -/
def dirCount (ts : List Tri) (e : Edge) : ℕ := dirS (edgeSlots ts) e

/-- The number of directed edge slots of a triangle list referencing the
undirected edge of `e` (either orientation). -/
def undirCount (ts : List Tri) (e : Edge) : ℕ := ucS (edgeSlots ts) e

/-- The `edge_count` dictionary: an insertion-ordered key list plus counts.
`defaultdict(int)` lookups of absent keys are 0. -/
structure Census where
  keys : List Edge
  cnt : Edge → ℕ

/-- One step of the census loop: `if rev_e in edge_count: edge_count[rev_e] += 1
else: edge_count[e] += 1`, where `edge_count[k] += 1` inserts the key with
count 1 when absent. -/
def censusStep (c : Census) (e : Edge) : Census :=
  if e.rev ∈ c.keys then
    { keys := c.keys, cnt := fun x => if x = e.rev then c.cnt x + 1 else c.cnt x }
  else if e ∈ c.keys then
    { keys := c.keys, cnt := fun x => if x = e then c.cnt x + 1 else c.cnt x }
  else
    { keys := c.keys ++ [e], cnt := fun x => if x = e then c.cnt x + 1 else c.cnt x }

/-- The edge census of a triangle list: fold the census loop over all slots. -/
def edgeCensus (ts : List Tri) : Census :=
  (edgeSlots ts).foldl censusStep { keys := [], cnt := fun _ => 0 }

/-- `boundary_edges = {e for e, c in edge_count.items() if c == 1}`, realised
as the insertion-ordered key list filtered to count-1 entries. -/
def boundaryEdges (ts : List Tri) : List Edge :=
  (edgeCensus ts).keys.filter fun e => decide ((edgeCensus ts).cnt e = 1)

/-- The forward adjacency of the boundary-edge set:
`adj[e[0]].append(e[1])` for each boundary edge. -/
def adjOf (B : List Edge) (v : ℕ) : List ℕ :=
  (B.filter fun e => decide (e.1 = v)).map fun e => e.2

/-- The inner `for nxt in adj[curr]` search: the first successor whose edge is
unused in both directions. -/
def findNext (used : List Edge) (curr : ℕ) : List ℕ → Option ℕ
  | [] => none
  | n :: rest =>
    if (curr, n) ∉ used ∧ (n, curr) ∉ used then some n
    else findNext used curr rest

/-- The walk `while loop[-1] != loop[0]`.  The partial loop is kept reversed
(`rl.head` is `loop[-1]`, `rl.getLast` is `loop[0] = s`).  Returns the final
reversed walk together with the updated `used` set.  The fuel bounds the
number of iterations; `findBoundaryLoops` supplies enough fuel (see the
termination theorem). -/
def traceLoop (B : List Edge) (s : ℕ) : ℕ → List Edge → List ℕ → List ℕ × List Edge
  | 0, used, rl => (rl, used)
  | _ + 1, used, [] => ([], used)
  | fuel + 1, used, curr :: rest =>
    if curr = s then (curr :: rest, used)
    else
      match findNext used curr (adjOf B curr) with
      | none => (curr :: rest, used)
      | some nxt =>
        traceLoop B s fuel ((curr, nxt) :: (nxt, curr) :: used) (nxt :: curr :: rest)

/-- The outer `for start_edge in boundary_edges` loop.  A seed already in
`used` is skipped; otherwise the walk runs from `loop = [s, t]` with both
directions of the seed marked used, and the walk is accepted only when it
closed (`loop[-1] == loop[0]`) with at least 4 stored points, storing
`loop[:-1]`.  The `used` set persists across seeds. -/
def traceAll (B : List Edge) (fuel : ℕ) : List Edge → List Edge → List (List ℕ) → List (List ℕ)
  | [], _, acc => acc
  | (s, t) :: seeds, used, acc =>
    if (s, t) ∈ used then traceAll B fuel seeds used acc
    else
      let r := traceLoop B s fuel ((s, t) :: (t, s) :: used) [t, s]
      if 4 ≤ r.1.length ∧ r.1.head? = some s then
        traceAll B fuel seeds r.2 (acc ++ [r.1.tail.reverse])
      else
        traceAll B fuel seeds r.2 acc

/-- `_find_boundary_loops`, run with a given walk fuel. -/
def findBoundaryLoopsFuel (ts : List Tri) (fuel : ℕ) : List (List ℕ) :=
  let B := boundaryEdges ts
  if B = [] then [] else traceAll B fuel B [] []

/-- `_find_boundary_loops`: the canonical run, with fuel one more than the
number of boundary edges (which always suffices; see the termination
theorem). -/
def findBoundaryLoops (ts : List Tri) : List (List ℕ) :=
  findBoundaryLoopsFuel ts ((boundaryEdges ts).length + 1)

/-- `_fill_loop_with_fan`: for `i in range(1, len(loop) - 1)` emit
`(loop[0], loop[i + 1], loop[i])`; loops shorter than 3 produce nothing. -/
def fillLoopWithFan (loop : List ℕ) : List Tri :=
  if loop.length < 3 then []
  else (List.range (loop.length - 2)).map fun j =>
    (loop.getD 0 0, loop.getD (j + 2) 0, loop.getD (j + 1) 0)

/-- A vertex position, with coordinates modelled as rationals. -/
abbrev Vec3 := ℚ × ℚ × ℚ

/-- `TOLERANCE = 1e-6` from the source. -/
def TOLERANCE : ℚ := 1 / 1000000

/-- Round a rational to the nearest integer, half to even — the rounding
Python's `round` applies. -/
def rhe (q : ℚ) : ℤ :=
  if q - ⌊q⌋ < 1 / 2 then ⌊q⌋
  else if 1 / 2 < q - ⌊q⌋ then ⌊q⌋ + 1
  else if ⌊q⌋ % 2 = 0 then ⌊q⌋ else ⌊q⌋ + 1

/-- `round(x, digits)` with `digits = -int(round(math.log(TOLERANCE, 10), 1)) = 6`. -/
def round6 (q : ℚ) : ℚ := (rhe (q * 1000000) : ℚ) / 1000000

/-- The quantized coordinate key `(round(x, digits), round(y, digits),
round(z, digits))` of a vertex. -/
def quantize (v : Vec3) : Vec3 := (round6 v.1, round6 v.2.1, round6 v.2.2)

/-- Position of a key in the insertion-ordered key list of `vertex_to_idx`
(`none` when absent). -/
def keyIndex : List Vec3 → Vec3 → Option ℕ
  | [], _ => none
  | k :: rest, q => if k = q then some 0 else (keyIndex rest q).map (· + 1)

/-- One step of the welding loop of `_create_3mf_mesh_patched`: an unseen key
is appended with the next sequential index; `vert_table` records the welded
index of each input vertex in input order. -/
def weldStep : List Vec3 × List ℕ → Vec3 → List Vec3 × List ℕ
  | (keys, table), v =>
    match keyIndex keys (quantize v) with
    | some j => (keys, table ++ [j])
    | none => (keys ++ [quantize v], table ++ [keys.length])

/-- The vertex welder: returns the deduplicated key list (the exported
positions, in insertion order) and the index remap `vert_table`. -/
def weld (vs : List Vec3) : List Vec3 × List ℕ := vs.foldl weldStep ([], [])

/-- The remap-and-filter loop of `_create_3mf_mesh_patched`: each triangle's
indices are looked up in `vert_table` (an out-of-range index is a Python
`KeyError`, modelled as `none`), and the triangle is kept only when the three
mapped indices are pairwise distinct. -/
def remapTriangles (table : List ℕ) : List Tri → Option (List Tri)
  | [] => some []
  | t :: rest =>
    match table.get? t.1, table.get? t.2.1, table.get? t.2.2,
        remapTriangles table rest with
    | some a, some b, some c, some tail =>
      if a ≠ b ∧ b ≠ c ∧ c ≠ a then some ((a, b, c) :: tail) else some tail
    | _, _, _, _ => none

/-- `_create_3mf_mesh_patched`: weld the vertices, remap and filter the
triangles, find the boundary loops of the result and append each loop's fan
fill.  Returns the exported position list (the quantized keys, in insertion
order) and the final triangle list, or `none` when a triangle index is out
of range. -/
def createMesh (vs : List Vec3) (ts : List Tri) : Option (List Vec3 × List Tri) :=
  match remapTriangles (weld vs).2 ts with
  | none => none
  | some kept =>
    some ((weld vs).1, kept ++ (findBoundaryLoops kept).flatMap fillLoopWithFan)

/-- The triangulation data the kernel reports for one face: transformed node
positions, the reversed-orientation flag, and node-index triples (1-based,
as in `Poly_Triangle.Value`). -/
structure FaceTri where
  nodes : List Vec3
  rev : Bool
  tris : List Tri
deriving DecidableEq

/-- Remap one face triangle into the cumulative buffer:
`order = (1, 3, 2) if reversed_face else (1, 2, 3)` and
`tri.Value(i) + offset - 1` for `i in order`. -/
def mapFaceTri (revF : Bool) (offset : ℕ) (t : Tri) : Tri :=
  if revF then (t.1 + offset - 1, t.2.2 + offset - 1, t.2.1 + offset - 1)
  else (t.1 + offset - 1, t.2.1 + offset - 1, t.2.2 + offset - 1)

/-- One iteration of the face loop of `_mesh_shape_guarded`: a face whose
triangulation query returns the sentinel (`None`) is skipped; otherwise its
nodes are appended, its triangles are remapped by the running offset, and
the offset advances by the node count. -/
def meshStep : List Vec3 × List Tri × ℕ → Option FaceTri → List Vec3 × List Tri × ℕ
  | acc, none => acc
  | (vs, ts, offset), some f =>
    (vs ++ f.nodes, ts ++ f.tris.map (mapFaceTri f.rev offset), offset + f.nodes.length)

/-- `_mesh_shape_guarded` (and the identical `SafeMesher._mesh_shape`): walk
the faces, collect vertices and remapped triangles, then drop degenerate
triangles (`len({t[0], t[1], t[2]}) == 3`). -/
def meshShape (faces : List (Option FaceTri)) : List Vec3 × List Tri :=
  let r := faces.foldl meshStep ([], [], 0)
  (r.1, r.2.1.filter fun t => decide (t.1 ≠ t.2.1 ∧ t.1 ≠ t.2.2 ∧ t.2.1 ≠ t.2.2))

/-- A triangle references three pairwise-distinct vertex indices. -/
def distinctTri (t : Tri) : Prop := t.1 ≠ t.2.1 ∧ t.2.1 ≠ t.2.2 ∧ t.2.2 ≠ t.1

instance (t : Tri) : Decidable (distinctTri t) := by unfold distinctTri; infer_instance

/-- Invariant tying the census state to the processed slot stream: keys are
distinct, each key's count is the undirected usage count of that edge and the
key's own direction occurs in the stream, absent keys count 0, every slot is
represented by its own or its reversed key, and no two keys are mutual
reverses. -/
def CensusInv (c : Census) (s : List Edge) : Prop :=
  c.keys.Nodup ∧
  (∀ k ∈ c.keys, c.cnt k = ucS s k ∧ 1 ≤ dirS s k) ∧
  (∀ k, k ∉ c.keys → c.cnt k = 0) ∧
  (∀ e ∈ s, e ∈ c.keys ∨ e.rev ∈ c.keys) ∧
  (∀ k ∈ c.keys, k.rev ∈ c.keys → k.rev = k)

/-- The consecutive directed edges of a reversed partial walk `rl`
(`rl.head` is the most recent vertex): element `i` is the forward edge from
`rl[i+1]` to `rl[i]`. -/
def walkEdges (rl : List ℕ) : List Edge := rl.tail.zip rl

/-- Invariant of the boundary walk, for the reversed partial loop `rl` with
start vertex `s` and used-edge set `used`. -/
def WalkInv (B : List Edge) (s : ℕ) (used : List Edge) (rl : List ℕ) : Prop :=
  2 ≤ rl.length ∧
  rl.getLast? = some s ∧
  s ∉ rl.tail.dropLast ∧
  rl.Chain' (fun a b => (b, a) ∈ B) ∧
  (∀ e ∈ walkEdges rl, e ∈ used ∧ e.rev ∈ used) ∧
  (walkEdges rl).Pairwise (fun e f => e ≠ f ∧ e ≠ f.rev)

/-- What the walk guarantees about a stored loop: it starts at a vertex that
does not recur, has at least two further vertices, its consecutive edges
(including the closing edge back to the start) are all boundary edges, and
it visits at least three distinct vertices. -/
def LoopOK (B : List Edge) (l : List ℕ) : Prop :=
  ∃ s m, l = s :: m ∧ s ∉ m ∧ 2 ≤ m.length ∧
    (l ++ [s]).Chain' (fun a b => (a, b) ∈ B) ∧
    3 ≤ l.toFinset.card

/-- Two vertices farther apart than `TOLERANCE` in at least one coordinate
(Chebyshev separation). -/
def chebFar (u v : Vec3) : Prop :=
  TOLERANCE < |u.1 - v.1| ∨ TOLERANCE < |u.2.1 - v.2.1| ∨ TOLERANCE < |u.2.2 - v.2.2|

/-- Squared Euclidean distance between two vertices. -/
def sqDist (u v : Vec3) : ℚ :=
  (u.1 - v.1) ^ 2 + (u.2.1 - v.2.1) ^ 2 + (u.2.2 - v.2.2) ^ 2

/-- The number of boundary edges unused (in either direction) by `used`. -/
def unusedCount (B : List Edge) (used : List Edge) : ℕ :=
  (B.filter fun e => decide (e ∉ used ∧ e.rev ∉ used)).length

/-! ## Basic lemmas -/

lemma Edge.rev_rev (e : Edge) : e.rev.rev = e := rfl

lemma Edge.rev_eq_iff {e k : Edge} : e = k.rev ↔ k = e.rev := by
  constructor <;> (rintro rfl; rfl)

/-! ## C7: fan-fill count and anchoring -/

/-- C7. For a loop of length `n ≥ 3` the fan fill returns exactly `n - 2`
triangles, each anchored at the loop's first vertex; loops shorter than 3
vertices produce no triangles. -/
theorem fillLoopWithFan_count_anchor (l : List ℕ) :
    (3 ≤ l.length →
      (fillLoopWithFan l).length = l.length - 2 ∧
        ∀ t ∈ fillLoopWithFan l, t.1 = l.getD 0 0) ∧
    (l.length < 3 → fillLoopWithFan l = []) := by
  constructor
  · intro h3
    unfold fillLoopWithFan
    rw [if_neg (by omega)]
    refine ⟨by simp, ?_⟩
    intro t ht
    rcases List.mem_map.1 ht with ⟨j, _, rfl⟩
    rfl
  · intro hlt
    unfold fillLoopWithFan
    rw [if_pos hlt]

/-- Witness for C7 at the concrete loops `[0, 1, 2, 3]` and `[7]`. -/
theorem fillLoopWithFan_count_anchor_witness :
    ((fillLoopWithFan [0, 1, 2, 3]).length = [0, 1, 2, 3].length - 2 ∧
      ∀ t ∈ fillLoopWithFan [0, 1, 2, 3], t.1 = [0, 1, 2, 3].getD 0 0) ∧
    fillLoopWithFan [7] = [] :=
  ⟨(fillLoopWithFan_count_anchor [0, 1, 2, 3]).1 (by decide),
    (fillLoopWithFan_count_anchor [7]).2 (by decide)⟩

/-! ## C8: winding of the fan fill on the square loop -/

/-- C8. On the square boundary loop `[0, 1, 2, 3]` the fan fill produces
exactly the triangles `(0, 2, 1)` and `(0, 3, 2)`, in that order: the fill
winds opposite to the recorded boundary-edge direction. -/
theorem fillLoopWithFan_square :
    fillLoopWithFan [0, 1, 2, 3] = [(0, 2, 1), (0, 3, 2)] := by decide

/-! ## C2: the extractor skips sentinel faces -/

lemma foldl_meshStep_filter (faces : List (Option FaceTri))
    (acc : List Vec3 × List Tri × ℕ) :
    faces.foldl meshStep acc = (faces.filter fun f => f.isSome).foldl meshStep acc := by
  induction faces generalizing acc with
  | nil => rfl
  | cons f fs ih =>
    cases f with
    | none => simpa [meshStep] using ih acc
    | some ft => simpa using ih (meshStep acc (some ft))

/-- C2. The guarded extractor's output on any face sequence equals its
output on the subsequence of faces that do have a triangulation: faces whose
triangulation query returns the sentinel contribute nothing, and (the
function being total) no exception arises from a sentinel face. -/
theorem meshShape_skips_sentinels (faces : List (Option FaceTri)) :
    meshShape faces = meshShape (faces.filter fun f => f.isSome) := by
  unfold meshShape
  rw [foldl_meshStep_filter]

/-! ## The census invariant -/

lemma Edge.ne_rev {k : Edge} (h : k.1 ≠ k.2) : k ≠ k.rev := by
  intro he
  exact h (congrArg Prod.fst he)

lemma ucS_append_singleton (s : List Edge) (e k : Edge) :
    ucS (s ++ [e]) k = ucS s k + if e = k ∨ e = k.rev then 1 else 0 := by
  simp only [ucS, List.countP_append, List.countP_cons, List.countP_nil]
  by_cases h : e = k ∨ e = k.rev <;> simp [h]

lemma dirS_append_singleton (s : List Edge) (e k : Edge) :
    dirS (s ++ [e]) k = dirS s k + if e = k then 1 else 0 := by
  simp only [dirS, List.count_append, List.count_singleton, beq_iff_eq]

lemma dirS_le_append (s : List Edge) (e k : Edge) :
    dirS s k ≤ dirS (s ++ [e]) k := by
  rw [dirS_append_singleton]; omega

lemma mem_of_dirS_pos {s : List Edge} {e : Edge} (h : 1 ≤ dirS s e) : e ∈ s :=
  List.count_pos_iff.1 h

lemma ucS_rev (s : List Edge) (k : Edge) : ucS s k.rev = ucS s k := by
  unfold ucS
  refine List.countP_congr ?_
  intro d _
  simp only [decide_eq_true_eq, Edge.rev_rev]
  exact or_comm

lemma ucS_eq_add_of_ne {s : List Edge} {k : Edge} (h : k.1 ≠ k.2) :
    ucS s k = dirS s k + dirS s k.rev := by
  have hkk : k ≠ k.rev := Edge.ne_rev h
  induction s with
  | nil => rfl
  | cons d s ih =>
    simp only [ucS, dirS, List.countP_cons, List.count_cons, beq_iff_eq,
      decide_eq_true_eq] at ih ⊢
    by_cases h1 : d = k <;> by_cases h2 : d = k.rev
    · exact absurd (h1.symm.trans h2) hkk
    · rw [if_pos (Or.inl h1), if_pos h1, if_neg h2]; omega
    · rw [if_pos (Or.inr h2), if_neg h1, if_pos h2]; omega
    · rw [if_neg (by tauto), if_neg h1, if_neg h2]; omega

lemma censusStep_inv {c : Census} {s : List Edge} (h : CensusInv c s) (e : Edge) :
    CensusInv (censusStep c e) (s ++ [e]) := by
  obtain ⟨hnd, hkey, habs, hcov, hrev⟩ := h
  unfold censusStep
  split
  case isTrue hmem =>
    unfold CensusInv
    dsimp only
    refine ⟨hnd, ?_, ?_, ?_, hrev⟩
    · intro k hk
      by_cases hke : k = e.rev
      · subst hke
        refine ⟨?_, le_trans (hkey _ hk).2 (dirS_le_append s e _)⟩
        rw [if_pos rfl, ucS_append_singleton, if_pos (Or.inr (Edge.rev_rev e).symm),
          (hkey _ hk).1]
      · have hcond : ¬(e = k ∨ e = k.rev) := by
          rintro (rfl | hh)
          · exact hke ((hrev _ hk hmem).symm)
          · exact hke (Edge.rev_eq_iff.1 hh)
        refine ⟨?_, le_trans (hkey _ hk).2 (dirS_le_append s e _)⟩
        rw [if_neg hke, ucS_append_singleton, if_neg hcond, (hkey _ hk).1]
        omega
    · intro k hk
      rw [if_neg (fun he => hk (by rw [he]; exact hmem))]
      exact habs k hk
    · intro d hd
      rcases List.mem_append.1 hd with hd | hd
      · exact hcov d hd
      · rw [List.mem_singleton.1 hd]
        exact Or.inr hmem
  case isFalse hnotrev =>
    split
    case isTrue hmem =>
      unfold CensusInv
      dsimp only
      refine ⟨hnd, ?_, ?_, ?_, hrev⟩
      · intro k hk
        by_cases hke : k = e
        · subst hke
          refine ⟨?_, ?_⟩
          · rw [if_pos rfl, ucS_append_singleton, if_pos (Or.inl rfl), (hkey _ hk).1]
          · rw [dirS_append_singleton, if_pos rfl]; omega
        · have hcond : ¬(e = k ∨ e = k.rev) := by
            rintro (hh | hh)
            · exact hke hh.symm
            · exact hnotrev (by rw [← Edge.rev_eq_iff.1 hh]; exact hk)
          refine ⟨?_, le_trans (hkey _ hk).2 (dirS_le_append s e _)⟩
          rw [if_neg hke, ucS_append_singleton, if_neg hcond, (hkey _ hk).1]
          omega
      · intro k hk
        rw [if_neg (fun he => hk (by rw [he]; exact hmem))]
        exact habs k hk
      · intro d hd
        rcases List.mem_append.1 hd with hd | hd
        · exact hcov d hd
        · rw [List.mem_singleton.1 hd]
          exact Or.inl hmem
    case isFalse hnotmem =>
      have hucs0 : ucS s e = 0 := by
        by_contra hne
        rcases List.countP_pos_iff.1 (Nat.pos_of_ne_zero hne) with ⟨d, hds, hdp⟩
        rcases of_decide_eq_true hdp with rfl | rfl
        · rcases hcov d hds with hh | hh
          · exact hnotmem hh
          · exact hnotrev hh
        · rcases hcov _ hds with hh | hh
          · exact hnotrev hh
          · rw [Edge.rev_rev] at hh
            exact hnotmem hh
      unfold CensusInv
      dsimp only
      refine ⟨?_, ?_, ?_, ?_, ?_⟩
      · simp only [List.nodup_append, List.nodup_cons, List.not_mem_nil, not_false_iff,
          List.nodup_nil, and_true, true_and]
        refine ⟨hnd, ?_⟩
        intro a ha
        simp only [List.mem_singleton]
        intro hae
        exact hnotmem (hae ▸ ha)
      · intro k hk
        rcases List.mem_append.1 hk with hk | hk
        · have hcond : ¬(e = k ∨ e = k.rev) := by
            rintro (rfl | hh)
            · exact hnotmem hk
            · exact hnotrev (by rw [← Edge.rev_eq_iff.1 hh]; exact hk)
          refine ⟨?_, le_trans (hkey _ hk).2 (dirS_le_append s e _)⟩
          rw [if_neg (fun he : k = e => hnotmem (he ▸ hk)), ucS_append_singleton,
            if_neg hcond, (hkey _ hk).1]
          omega
        · rw [List.mem_singleton.1 hk]
          refine ⟨?_, ?_⟩
          · rw [if_pos rfl, ucS_append_singleton, if_pos (Or.inl rfl), hucs0,
              habs e hnotmem]
          · rw [dirS_append_singleton, if_pos rfl]; omega
      · intro k hk
        simp only [List.mem_append, List.mem_singleton, not_or] at hk
        rw [if_neg hk.2]
        exact habs k hk.1
      · intro d hd
        rcases List.mem_append.1 hd with hd | hd
        · rcases hcov d hd with hh | hh
          · exact Or.inl (List.mem_append_left _ hh)
          · exact Or.inr (List.mem_append_left _ hh)
        · rw [List.mem_singleton.1 hd]
          exact Or.inl (List.mem_append_right _ (List.mem_singleton_self e))
      · intro k hk hkr
        rcases List.mem_append.1 hk with hk | hk
        · rcases List.mem_append.1 hkr with hkr | hkr
          · exact hrev k hk hkr
          · have h1 : k.rev = e := List.mem_singleton.1 hkr
            have h2 : k = e.rev := by rw [← h1, Edge.rev_rev]
            exact absurd (h2 ▸ hk) hnotrev
        · rw [List.mem_singleton.1 hk] at hkr ⊢
          rcases List.mem_append.1 hkr with hkr | hkr
          · exact absurd hkr hnotrev
          · exact List.mem_singleton.1 hkr

lemma censusInv_foldl : ∀ (s : List Edge) (c : Census) (p : List Edge),
    CensusInv c p → CensusInv (s.foldl censusStep c) (p ++ s) := by
  intro s
  induction s with
  | nil => intro c p h; simpa using h
  | cons e s ih =>
    intro c p h
    have := ih (censusStep c e) (p ++ [e]) (censusStep_inv h e)
    simpa using this

lemma censusInv (ts : List Tri) : CensusInv (edgeCensus ts) (edgeSlots ts) := by
  have h0 : CensusInv { keys := [], cnt := fun _ => 0 } [] := by
    refine ⟨List.nodup_nil, ?_, ?_, ?_, ?_⟩ <;> simp
  simpa using censusInv_foldl (edgeSlots ts) _ [] h0

/-! ## The boundary walk -/

lemma findNext_spec {used : List Edge} {curr : ℕ} :
    ∀ {adjL : List ℕ} {nxt : ℕ}, findNext used curr adjL = some nxt →
      nxt ∈ adjL ∧ (curr, nxt) ∉ used ∧ (nxt, curr) ∉ used := by
  intro adjL
  induction adjL with
  | nil => intro nxt h; exact absurd h (by simp [findNext])
  | cons n rest ih =>
    intro nxt h
    unfold findNext at h
    split at h
    · cases h
      next hcond => exact ⟨List.mem_cons_self _ _, hcond.1, hcond.2⟩
    · obtain ⟨h1, h2, h3⟩ := ih h
      exact ⟨List.mem_cons_of_mem _ h1, h2, h3⟩

lemma mem_adjOf {B : List Edge} {curr nxt : ℕ} (h : nxt ∈ adjOf B curr) :
    (curr, nxt) ∈ B := by
  unfold adjOf at h
  rcases List.mem_map.1 h with ⟨e, he, rfl⟩
  obtain ⟨heB, hec⟩ := List.mem_filter.1 he
  have : e.1 = curr := of_decide_eq_true hec
  rwa [← this]

lemma walkEdges_cons (n c : ℕ) (rest : List ℕ) :
    walkEdges (n :: c :: rest) = (c, n) :: walkEdges (c :: rest) := rfl

lemma mem_walkEdges_append : ∀ (u : List ℕ) (a b : ℕ) (w : List ℕ),
    (b, a) ∈ walkEdges (u ++ a :: b :: w) := by
  intro u
  induction u with
  | nil => intro a b w; exact List.mem_cons_self _ _
  | cons x u ih =>
    intro a b w
    rcases hu : u ++ a :: b :: w with _ | ⟨y, t⟩
    · exact absurd hu (by simp)
    · rw [List.cons_append, hu, walkEdges_cons]
      exact List.mem_cons_of_mem _ (hu ▸ ih a b w)

lemma traceLoop_inv {B : List Edge} {s : ℕ} :
    ∀ (fuel : ℕ) (used : List Edge) (rl : List ℕ), WalkInv B s used rl →
      WalkInv B s (traceLoop B s fuel used rl).2 (traceLoop B s fuel used rl).1 := by
  intro fuel
  induction fuel with
  | zero => intro used rl h; exact h
  | succ fuel ih =>
    intro used rl h
    rcases rl with _ | ⟨curr, rest⟩
    · exact h
    · unfold traceLoop
      split
      · exact h
      · rcases hfn : findNext used curr (adjOf B curr) with _ | nxt
        · exact h
        · next hcurr =>
          obtain ⟨hadj, hu1, hu2⟩ := findNext_spec hfn
          have hcn : (curr, nxt) ∈ B := mem_adjOf hadj
          obtain ⟨hlen, hlast, hmid, hchain, hused, hpw⟩ := h
          have hrest : rest ≠ [] := by
            intro hr
            rw [hr] at hlen
            simp at hlen
          apply ih
          refine ⟨?_, ?_, ?_, ?_, ?_, ?_⟩
          · simp
          · rw [List.getLast?_cons_cons]
            exact hlast
          · show s ∉ (curr :: rest).dropLast
            rcases rest with _ | ⟨r0, rest'⟩
            · exact absurd rfl hrest
            · rw [List.dropLast_cons₂]
              intro hmem
              rcases List.mem_cons.1 hmem with rfl | hmem
              · exact hcurr rfl
              · exact hmid hmem
          · exact List.chain'_cons.2 ⟨hcn, hchain⟩
          · rw [walkEdges_cons]
            intro e he
            rcases List.mem_cons.1 he with rfl | he
            · constructor
              · exact List.mem_cons_self _ _
              · exact List.mem_cons_of_mem _ (List.mem_cons_self _ _)
            · obtain ⟨he1, he2⟩ := hused e he
              exact ⟨List.mem_cons_of_mem _ (List.mem_cons_of_mem _ he1),
                List.mem_cons_of_mem _ (List.mem_cons_of_mem _ he2)⟩
          · rw [walkEdges_cons]
            refine List.pairwise_cons.2 ⟨?_, hpw⟩
            intro f hf
            obtain ⟨hf1, hf2⟩ := hused f hf
            constructor
            · intro heq
              exact hu1 (heq ▸ hf1)
            · intro heq
              exact hu1 (heq ▸ hf2)

lemma all_eq_or_two_ne (m : List ℕ) :
    (∀ x ∈ m, ∀ y ∈ m, x = y) ∨ ∃ x ∈ m, ∃ y ∈ m, x ≠ y := by
  by_cases h : ∃ x ∈ m, ∃ y ∈ m, x ≠ y
  · exact Or.inr h
  · push_neg at h
    exact Or.inl h

lemma accepted_loopOK {B : List Edge} {s : ℕ} {used : List Edge} {rl : List ℕ}
    (h : WalkInv B s used rl) (h4 : 4 ≤ rl.length) (hhd : rl.head? = some s) :
    LoopOK B rl.tail.reverse := by
  obtain ⟨hlen, hlast, hmid, hchain, hused, hpw⟩ := h
  rcases rl with _ | ⟨hd, rest⟩
  · simp at hhd
  · have hds : s = hd := by
      have := hhd
      simp only [List.head?_cons, Option.some_inj] at this
      exact this.symm
    subst hds
    have hrest : rest ≠ [] := by
      intro hr
      rw [hr] at h4
      simp at h4
    rcases List.eq_nil_or_concat rest with hr | ⟨middle, a, hr⟩
    · exact absurd hr hrest
    · rw [List.concat_eq_append] at hr
      subst hr
      have has : s = a := by
        rw [show s :: (middle ++ [a]) = (s :: middle) ++ [a] by simp,
          List.getLast?_concat] at hlast
        exact Option.some_inj.1 hlast.symm
      subst has
      have hsm : s ∉ middle := by
        simpa [List.dropLast_concat] using hmid
      have hm2 : 2 ≤ middle.length := by
        simp at h4
        omega
      refine ⟨s, middle.reverse, ?_, by simpa using hsm, by simpa using hm2, ?_, ?_⟩
      · simp
      · have : (s :: middle ++ [s]).tail.reverse ++ [s] = (s :: (middle ++ [s])).reverse := by
          simp
        simp only [List.cons_append] at this ⊢
        rw [this]
        exact List.chain'_reverse.2 hchain
      · -- at least three distinct vertices
        rw [show (s :: (middle ++ [s])).tail.reverse = s :: middle.reverse by simp]
        rcases all_eq_or_two_ne middle.reverse with hall | ⟨x, hx, y, hy, hxy⟩
        · exfalso
          have hallm : ∀ x ∈ middle, ∀ y ∈ middle, x = y := by
            intro x hx y hy
            exact hall x (List.mem_reverse.2 hx) y (List.mem_reverse.2 hy)
          rcases middle with _ | ⟨x0, mrest⟩
          · simp at hm2
          · rcases mrest with _ | ⟨x1, mid2⟩
            · simp at hm2
            · -- rl = s :: x0 :: (x1 :: mid2 ++ [s])
              have hsplit : s :: (x0 :: x1 :: mid2) ++ [s] =
                  s :: x0 :: (x1 :: mid2 ++ [s]) := by simp
              rcases List.eq_nil_or_concat (x1 :: mid2) with hc | ⟨init, xl, hc⟩
              · exact absurd hc (by simp)
              · rw [List.concat_eq_append] at hc
                have hxl : xl ∈ x0 :: x1 :: mid2 := by
                  rw [hc]
                  exact List.mem_cons_of_mem _ (List.mem_append_right _ (List.mem_singleton_self _))
                have hx0 : xl = x0 :=
                  hallm xl hxl x0 (List.mem_cons_self _ _)
                have hmem : (s, xl) ∈ walkEdges (x0 :: x1 :: (mid2 ++ [s])) := by
                  have hform : x0 :: x1 :: (mid2 ++ [s]) = (x0 :: init) ++ xl :: s :: [] := by
                    rw [← List.cons_append, hc]
                    simp
                  rw [hform]
                  exact mem_walkEdges_append (x0 :: init) xl s []
                have hpw2 := hpw
                simp only [List.cons_append] at hpw2
                rw [walkEdges_cons] at hpw2
                have := (List.pairwise_cons.1 hpw2).1 (s, xl) hmem
                rw [hx0] at this
                exact this.2 rfl
        · have hsub : ({s, x, y} : Finset ℕ) ⊆ (s :: middle.reverse).toFinset := by
            intro v hv
            simp only [Finset.mem_insert, Finset.mem_singleton] at hv
            rcases hv with rfl | rfl | rfl
            · simp
            · simp [List.mem_reverse.1 hx]
            · simp [List.mem_reverse.1 hy]
          have hsx : s ≠ x := fun he => hsm (List.mem_reverse.1 (he ▸ hx))
          have hsy : s ≠ y := fun he => hsm (List.mem_reverse.1 (he ▸ hy))
          have hcard : ({s, x, y} : Finset ℕ).card = 3 := by
            rw [Finset.card_insert_of_not_mem (by simp [hsx, hsy]),
              Finset.card_insert_of_not_mem (by simp [hxy]), Finset.card_singleton]
          calc 3 = ({s, x, y} : Finset ℕ).card := hcard.symm
            _ ≤ (s :: middle.reverse).toFinset.card := Finset.card_le_card hsub

lemma traceAll_loopOK {B : List Edge} {fuel : ℕ} :
    ∀ (seeds used : List Edge) (acc : List (List ℕ)),
      (∀ e ∈ seeds, e ∈ B) → (∀ l ∈ acc, LoopOK B l) →
      ∀ l ∈ traceAll B fuel seeds used acc, LoopOK B l := by
  intro seeds
  induction seeds with
  | nil => intro used acc _ hacc l hl; exact hacc l hl
  | cons e seeds ih =>
    intro used acc hseeds hacc l hl
    obtain ⟨s, t⟩ := e
    have hstB : (s, t) ∈ B := hseeds _ (List.mem_cons_self _ _)
    have hseeds' : ∀ e ∈ seeds, e ∈ B := fun e he => hseeds e (List.mem_cons_of_mem _ he)
    simp only [traceAll] at hl
    split at hl
    · exact ih used acc hseeds' hacc l hl
    · have hinv : WalkInv B s ((s, t) :: (t, s) :: used) [t, s] := by
        refine ⟨by simp, by simp, by simp, ?_, ?_, ?_⟩
        · exact List.chain'_cons.2 ⟨hstB, List.chain'_singleton _⟩
        · intro f hf
          have : f = (s, t) := by simpa [walkEdges] using hf
          subst this
          exact ⟨List.mem_cons_self _ _, List.mem_cons_of_mem _ (List.mem_cons_self _ _)⟩
        · simp [walkEdges]
      have hres := traceLoop_inv fuel _ _ hinv
      split at hl
      · next hacc2 =>
        refine ih _ _ hseeds' ?_ l hl
        intro l' hl'
        rcases List.mem_append.1 hl' with hl' | hl'
        · exact hacc l' hl'
        · rw [List.mem_singleton.1 hl']
          exact accepted_loopOK hres hacc2.1 hacc2.2
      · exact ih _ _ hseeds' hacc l hl

lemma findBoundaryLoops_loopOK (ts : List Tri) :
    ∀ l ∈ findBoundaryLoops ts, LoopOK (boundaryEdges ts) l := by
  intro l hl
  unfold findBoundaryLoops findBoundaryLoopsFuel at hl
  dsimp only at hl
  split at hl
  · simp at hl
  · exact traceAll_loopOK _ _ _ (fun e he => he) (by simp) l hl

/-! ## Boundary-edge characterization -/

lemma Edge.rev_eq_self {e : Edge} (h : e.1 = e.2) : e.rev = e := by
  obtain ⟨a, b⟩ := e
  cases h
  rfl

lemma mem_boundaryEdges {ts : List Tri} {e : Edge} :
    e ∈ boundaryEdges ts ↔ e ∈ (edgeCensus ts).keys ∧ (edgeCensus ts).cnt e = 1 := by
  simp [boundaryEdges, List.mem_filter]

lemma mem_boundaryEdges_iff {ts : List Tri} {e : Edge} :
    e ∈ boundaryEdges ts ↔ undirCount ts e = 1 ∧ 1 ≤ dirCount ts e := by
  obtain ⟨hnd, hkey, habs, hcov, hrev⟩ := censusInv ts
  rw [mem_boundaryEdges]
  constructor
  · rintro ⟨hk, hc⟩
    refine ⟨?_, (hkey e hk).2⟩
    show ucS (edgeSlots ts) e = 1
    rw [← (hkey e hk).1]
    exact hc
  · rintro ⟨huc, hdir⟩
    have hes : e ∈ edgeSlots ts := mem_of_dirS_pos hdir
    rcases hcov e hes with hk | hk
    · refine ⟨hk, ?_⟩
      rw [(hkey e hk).1]
      exact huc
    · by_cases hee : e.1 = e.2
      · rw [Edge.rev_eq_self hee] at hk
        refine ⟨hk, ?_⟩
        rw [(hkey e hk).1]
        exact huc
      · exfalso
        have heq := ucS_eq_add_of_ne (s := edgeSlots ts) hee
        have hd2 : 1 ≤ dirS (edgeSlots ts) e.rev := (hkey _ hk).2
        simp only [undirCount, dirCount] at huc hdir
        omega

lemma edgeSlots_ne {ts : List Tri} (hclean : ∀ t ∈ ts, distinctTri t) :
    ∀ e ∈ edgeSlots ts, e.1 ≠ e.2 := by
  intro e he
  rcases List.mem_flatMap.1 he with ⟨t, ht, hte⟩
  obtain ⟨h1, h2, h3⟩ := hclean t ht
  simp only [triEdges, List.mem_cons, List.not_mem_nil, or_false] at hte
  rcases hte with rfl | rfl | rfl
  · exact h1
  · exact h2
  · exact h3

lemma boundaryEdges_ne {ts : List Tri} (hclean : ∀ t ∈ ts, distinctTri t) :
    ∀ e ∈ boundaryEdges ts, e.1 ≠ e.2 := by
  intro e he
  obtain ⟨_, hdir⟩ := mem_boundaryEdges_iff.1 he
  exact edgeSlots_ne hclean e (mem_of_dirS_pos hdir)

lemma boundaryEdges_nodup (ts : List Tri) : (boundaryEdges ts).Nodup :=
  (censusInv ts).1.filter _

/-! ## C4: closed meshes yield no boundary loops -/

/-- C4. For a closed (watertight) triangle list — every undirected edge
that occurs is referenced by exactly two triangle edge slots —
`_find_boundary_loops` returns the empty list of loops. -/
theorem findBoundaryLoops_of_closed (ts : List Tri)
    (h : ∀ e ∈ edgeSlots ts, undirCount ts e = 2) :
    findBoundaryLoops ts = [] := by
  have hB : boundaryEdges ts = [] := by
    rw [List.eq_nil_iff_forall_not_mem]
    intro e he
    obtain ⟨huc, hdir⟩ := mem_boundaryEdges_iff.1 he
    have := h e (mem_of_dirS_pos hdir)
    omega
  unfold findBoundaryLoops findBoundaryLoopsFuel
  simp [hB]

/-- Witness for C4 at a concrete closed tetrahedron. -/
theorem findBoundaryLoops_of_closed_witness :
    (∀ e ∈ edgeSlots [(0, 1, 2), (0, 2, 3), (0, 3, 1), (1, 3, 2)],
      undirCount [(0, 1, 2), (0, 2, 3), (0, 3, 1), (1, 3, 2)] e = 2) ∧
    findBoundaryLoops [(0, 1, 2), (0, 2, 3), (0, 3, 1), (1, 3, 2)] = [] :=
  ⟨by decide, findBoundaryLoops_of_closed _ (by decide)⟩

/-! ## C5: the undirected edge census -/

/-- C5. For triangle lists whose triangles have pairwise-distinct
indices: the census never stores both directions of an undirected edge, the
stored count of a key is the total number of triangle edge slots referencing
that undirected edge in either direction, and an edge (in whichever
direction was stored) is classified as boundary iff exactly one slot
references it. -/
theorem edgeCensus_undirected (ts : List Tri) (hclean : ∀ t ∈ ts, distinctTri t) :
    (∀ k ∈ (edgeCensus ts).keys, k.rev ∉ (edgeCensus ts).keys) ∧
    (∀ k ∈ (edgeCensus ts).keys, (edgeCensus ts).cnt k = undirCount ts k) ∧
    (∀ e ∈ edgeSlots ts,
      ((e ∈ boundaryEdges ts ∨ e.rev ∈ boundaryEdges ts) ↔ undirCount ts e = 1)) := by
  obtain ⟨hnd, hkey, habs, hcov, hrev⟩ := censusInv ts
  refine ⟨?_, ?_, ?_⟩
  · intro k hk hkr
    have heq := hrev k hk hkr
    have hke := edgeSlots_ne hclean k (mem_of_dirS_pos (hkey k hk).2)
    exact hke (congrArg Prod.fst heq).symm
  · intro k hk
    exact (hkey k hk).1
  · intro e hes
    constructor
    · rintro (hb | hb)
      · exact (mem_boundaryEdges_iff.1 hb).1
      · have := (mem_boundaryEdges_iff.1 hb).1
        rwa [undirCount, ucS_rev] at this
    · intro huc
      refine Or.inl (mem_boundaryEdges_iff.2 ⟨huc, ?_⟩)
      exact List.count_pos_iff.2 hes

/-- Witness for C5 at a concrete triangle list (a tetrahedron minus one
face). -/
theorem edgeCensus_undirected_witness :
    (∀ t ∈ [((0 : ℕ), (2 : ℕ), (3 : ℕ)), (0, 3, 1), (1, 3, 2)], distinctTri t) ∧
    ((∀ k ∈ (edgeCensus [(0, 2, 3), (0, 3, 1), (1, 3, 2)]).keys,
        k.rev ∉ (edgeCensus [(0, 2, 3), (0, 3, 1), (1, 3, 2)]).keys) ∧
      (∀ k ∈ (edgeCensus [(0, 2, 3), (0, 3, 1), (1, 3, 2)]).keys,
        (edgeCensus [(0, 2, 3), (0, 3, 1), (1, 3, 2)]).cnt k =
          undirCount [(0, 2, 3), (0, 3, 1), (1, 3, 2)] k) ∧
      (∀ e ∈ edgeSlots [(0, 2, 3), (0, 3, 1), (1, 3, 2)],
        ((e ∈ boundaryEdges [(0, 2, 3), (0, 3, 1), (1, 3, 2)] ∨
            e.rev ∈ boundaryEdges [(0, 2, 3), (0, 3, 1), (1, 3, 2)]) ↔
          undirCount [(0, 2, 3), (0, 3, 1), (1, 3, 2)] e = 1))) :=
  ⟨by decide, edgeCensus_undirected _ (by decide)⟩

/-! ## C6: returned loops are closed and have at least 3 distinct vertices -/

/-- C6. Every loop returned by `_find_boundary_loops` is closed — its
consecutive edges, including the closing edge from the last stored vertex
back to the first (the walk's dropped closing repetition), are all boundary
edges — and it visits at least 3 distinct vertex indices, for every input
triangle list. -/
theorem findBoundaryLoops_loops_closed (ts : List Tri) (l : List ℕ)
    (hl : l ∈ findBoundaryLoops ts) :
    3 ≤ l.toFinset.card ∧
      (l ++ l.take 1).Chain' (fun a b => (a, b) ∈ boundaryEdges ts) := by
  obtain ⟨s, m, heq, hsm, hm2, hchain, hcard⟩ := findBoundaryLoops_loopOK ts l hl
  subst heq
  exact ⟨hcard, by simpa using hchain⟩

/-- Witness for C6 at a tetrahedron with one face removed. -/
theorem findBoundaryLoops_loops_closed_witness :
    [0, 2, 1] ∈ findBoundaryLoops [(0, 2, 3), (0, 3, 1), (1, 3, 2)] ∧
      (3 ≤ ([0, 2, 1] : List ℕ).toFinset.card ∧
        (([0, 2, 1] : List ℕ) ++ ([0, 2, 1] : List ℕ).take 1).Chain'
          (fun a b => (a, b) ∈ boundaryEdges [(0, 2, 3), (0, 3, 1), (1, 3, 2)])) :=
  ⟨by decide, findBoundaryLoops_loops_closed _ _ (by decide)⟩

/-! ## C1: all assembled triangles reference three distinct welded vertices -/

lemma fill_distinct {B : List Edge} {l : List ℕ} (hok : LoopOK B l)
    (hB : ∀ e ∈ B, e.1 ≠ e.2) : ∀ t ∈ fillLoopWithFan l, distinctTri t := by
  obtain ⟨s, m, heq, hsm, hm2, hchain, _⟩ := hok
  subst heq
  have hlen : (s :: m).length = m.length + 1 := by simp
  intro t ht
  unfold fillLoopWithFan at ht
  rw [if_neg (by simp; omega)] at ht
  rcases List.mem_map.1 ht with ⟨j, hj, rfl⟩
  rw [List.mem_range] at hj
  have hj1 : j + 1 < (s :: m).length := by simp at hj ⊢; omega
  have hj2 : j + 2 < (s :: m).length := by simp at hj ⊢; omega
  have hchl : (s :: m).Chain' (fun a b => (a, b) ∈ B) :=
    (List.chain'_append.1 hchain).1
  have hcons : ((s :: m).get ⟨j + 1, hj1⟩, (s :: m).get ⟨j + 2, hj2⟩) ∈ B := by
    have := List.chain'_iff_get.1 hchl (j + 1) (by simp at hj ⊢; omega)
    exact this
  have hne : (s :: m).getD (j + 1) 0 ≠ (s :: m).getD (j + 2) 0 := by
    rw [List.getD_eq_get _ _ hj1, List.getD_eq_get _ _ hj2]
    exact hB _ hcons
  have hjm1 : j < m.length := by simp at hj; omega
  have hjm2 : j + 1 < m.length := by simp at hj; omega
  have hmem1 : (s :: m).getD (j + 1) 0 ∈ m := by
    rw [List.getD_cons_succ, List.getD_eq_get _ _ hjm1]
    exact List.get_mem _ _ _
  have hmem2 : (s :: m).getD (j + 2) 0 ∈ m := by
    rw [List.getD_cons_succ, List.getD_eq_get _ _ hjm2]
    exact List.get_mem _ _ _
  simp only [distinctTri, List.getD_cons_zero]
  refine ⟨?_, ?_, ?_⟩
  · intro he
    exact hsm (by rw [he]; exact hmem2)
  · exact fun he => hne he.symm
  · intro he
    exact hsm (by rw [← he]; exact hmem1)

lemma remapTriangles_clean :
    ∀ {table : List ℕ} {ts kept : List Tri}, remapTriangles table ts = some kept →
      ∀ t ∈ kept, distinctTri t := by
  intro table ts
  induction ts with
  | nil =>
    intro kept h
    cases h
    simp
  | cons t rest ih =>
    intro kept h
    unfold remapTriangles at h
    split at h
    · next a b c tail ha hb hc htail =>
      split at h
      · next hd =>
        cases h
        intro u hu
        rcases List.mem_cons.1 hu with rfl | hu
        · exact hd
        · exact ih htail u hu
      · cases h
        intro u hu
        exact ih htail u hu
    · cases h

/-- C1. Every triangle of the final assembled list produced by
`_create_3mf_mesh_patched` — the degeneracy-filtered remapped triangles
together with all appended fan-fill triangles — references three
pairwise-distinct welded vertex indices, for every input vertex buffer and
raw triangle list (on which the function completes). -/
theorem createMesh_triangles_distinct (vs : List Vec3) (ts : List Tri)
    (ks : List Vec3) (fs : List Tri) (h : createMesh vs ts = some (ks, fs)) :
    ∀ t ∈ fs, distinctTri t := by
  unfold createMesh at h
  rcases hre : remapTriangles (weld vs).2 ts with _ | kept
  · rw [hre] at h
    cases h
  · rw [hre] at h
    have hp := Option.some.inj h
    have hclean : ∀ t ∈ kept, distinctTri t := remapTriangles_clean hre
    intro t htf
    have hfs : fs = kept ++ (findBoundaryLoops kept).flatMap fillLoopWithFan :=
      (congrArg Prod.snd hp).symm
    rw [hfs] at htf
    rcases List.mem_append.1 htf with ht | ht
    · exact hclean t ht
    · rcases List.mem_flatMap.1 ht with ⟨l, hlmem, htl⟩
      exact fill_distinct (findBoundaryLoops_loopOK kept l hlmem)
        (boundaryEdges_ne hclean) t htl

/-- Witness for C1: a single triangle whose mirror-image fan fill is added,
all output triangles having distinct indices. -/
theorem createMesh_triangles_distinct_witness :
    createMesh [(0, 0, 0), (1, 0, 0), (0, 1, 0)] [(0, 1, 2)] =
        some ([(0, 0, 0), (1, 0, 0), (0, 1, 0)], [(0, 1, 2), (0, 2, 1)]) ∧
      ∀ t ∈ [((0 : ℕ), (1 : ℕ), (2 : ℕ)), (0, 2, 1)], distinctTri t := by
  have h0 : round6 0 = 0 := by norm_num [round6, rhe]
  have h1 : round6 1 = 1 := by norm_num [round6, rhe]
  have hw : weld [(0, 0, 0), (1, 0, 0), (0, 1, 0)] =
      ([(0, 0, 0), (1, 0, 0), (0, 1, 0)], [0, 1, 2]) := by
    norm_num [weld, weldStep, keyIndex, quantize, h0, h1, Prod.ext_iff]
  have hmain : createMesh [(0, 0, 0), (1, 0, 0), (0, 1, 0)] [(0, 1, 2)] =
      some ([(0, 0, 0), (1, 0, 0), (0, 1, 0)], [(0, 1, 2), (0, 2, 1)]) := by
    unfold createMesh
    rw [hw]
    rfl
  exact ⟨hmain, createMesh_triangles_distinct _ _ _ _ hmain⟩

/-! ## C9: welding vertices that are pairwise separated -/

lemma rhe_close (q : ℚ) : |q - rhe q| ≤ 1 / 2 := by
  have h0 : (⌊q⌋ : ℚ) ≤ q := Int.floor_le q
  have h1 : q < ⌊q⌋ + 1 := Int.lt_floor_add_one q
  unfold rhe
  split_ifs with hc1 hc2 hc3
  · rw [abs_of_nonneg (by linarith)]
    linarith
  · push_cast
    rw [abs_of_nonpos (by linarith)]
    linarith
  · rw [abs_of_nonneg (by linarith)]
    linarith
  · push_cast
    rw [abs_of_nonpos (by linarith)]
    linarith

lemma round6_close {x y : ℚ} (h : round6 x = round6 y) : |x - y| ≤ TOLERANCE := by
  have hn : ((rhe (x * 1000000) : ℚ)) = ((rhe (y * 1000000) : ℚ)) := by
    have h2 := congrArg (fun r : ℚ => r * 1000000) h
    simp only [round6] at h2
    rw [div_mul_cancel₀ _ (by norm_num : (1000000 : ℚ) ≠ 0),
      div_mul_cancel₀ _ (by norm_num : (1000000 : ℚ) ≠ 0)] at h2
    exact h2
  have h1 := rhe_close (x * 1000000)
  have h2 := rhe_close (y * 1000000)
  rw [hn] at h1
  rw [abs_le] at h1 h2 ⊢
  unfold TOLERANCE
  constructor <;> linarith [h1.1, h1.2, h2.1, h2.2]

lemma quantize_ne_of_chebFar {u v : Vec3} (h : chebFar u v) : quantize u ≠ quantize v := by
  intro he
  unfold quantize at he
  rw [Prod.ext_iff] at he
  obtain ⟨he1, he23⟩ := he
  rw [Prod.ext_iff] at he23
  obtain ⟨he2, he3⟩ := he23
  rcases h with hc | hc | hc
  · exact absurd (round6_close he1) (not_le.2 hc)
  · exact absurd (round6_close he2) (not_le.2 hc)
  · exact absurd (round6_close he3) (not_le.2 hc)

lemma keyIndex_none {keys : List Vec3} {k : Vec3} (h : k ∉ keys) :
    keyIndex keys k = none := by
  induction keys with
  | nil => rfl
  | cons x rest ih =>
    unfold keyIndex
    rw [if_neg, ih (fun hm => h (List.mem_cons_of_mem _ hm))]
    · rfl
    · intro he
      exact h (he ▸ List.mem_cons_self _ _)

lemma weld_foldl_of_nodup :
    ∀ (vs : List Vec3) (keys : List Vec3) (table : List ℕ),
      (keys ++ vs.map quantize).Nodup →
      vs.foldl weldStep (keys, table) =
        (keys ++ vs.map quantize,
          table ++ (List.range vs.length).map (fun i => i + keys.length)) := by
  intro vs
  induction vs with
  | nil => intro keys table _; simp
  | cons v vs ih =>
    intro keys table hnd
    have hnotin : quantize v ∉ keys := by
      rcases List.nodup_append.1 hnd with ⟨_, _, hdisj⟩
      intro hmem
      exact hdisj hmem (by simp)
    have hstep : weldStep (keys, table) v = (keys ++ [quantize v], table ++ [keys.length]) := by
      show (match keyIndex keys (quantize v) with
        | some j => (keys, table ++ [j])
        | none => (keys ++ [quantize v], table ++ [keys.length])) =
        (keys ++ [quantize v], table ++ [keys.length])
      rw [keyIndex_none hnotin]
    have hnd' : ((keys ++ [quantize v]) ++ vs.map quantize).Nodup := by
      rwa [List.append_assoc, List.singleton_append, ← List.map_cons]
    rw [List.foldl_cons, hstep, ih _ _ hnd']
    refine congrArg₂ Prod.mk ?_ ?_
    · simp
    · rw [List.append_assoc, List.singleton_append]
      have hrange : (List.range (vs.length + 1)).map (fun i => i + keys.length) =
          keys.length :: (List.range vs.length).map
            (fun i => i + (keys ++ [quantize v]).length) := by
        rw [List.range_succ_eq_map, List.map_cons, List.map_map]
        refine congrArg₂ List.cons (by omega) ?_
        refine List.map_congr_left ?_
        intro i _
        simp [Function.comp]
        omega
      rw [show (v :: vs).length = vs.length + 1 by rfl, hrange]

/-- C9 counterexample. The claim fails for Euclidean separation: the two
vertices below are farther apart than `TOLERANCE` (squared distance
`192/10^14 > TOLERANCE^2 = 100/10^14`), yet they quantize to the same key, so
the welded table has one entry instead of two.  Moreover even a trivially
separated single vertex does not keep its exact position: the exported entry
is the quantized key, not the input coordinate. -/
theorem weld_separated_cex :
    (TOLERANCE ^ 2 <
        sqDist (6 / 10 ^ 7, 6 / 10 ^ 7, 6 / 10 ^ 7) (14 / 10 ^ 7, 14 / 10 ^ 7, 14 / 10 ^ 7) ∧
      (weld [(6 / 10 ^ 7, 6 / 10 ^ 7, 6 / 10 ^ 7),
        (14 / 10 ^ 7, 14 / 10 ^ 7, 14 / 10 ^ 7)]).1.length = 1) ∧
    (weld [((1 : ℚ) / 3, 0, 0)]).1 ≠ [((1 : ℚ) / 3, 0, 0)] := by
  have h6 : round6 (6 / 10 ^ 7) = 1 / 1000000 := by norm_num [round6, rhe]
  have h14 : round6 (14 / 10 ^ 7) = 1 / 1000000 := by norm_num [round6, rhe]
  have h3 : round6 (1 / 3) = 333333 / 1000000 := by norm_num [round6, rhe]
  have h0 : round6 0 = 0 := by norm_num [round6, rhe]
  norm_num at h6 h14 h3
  refine ⟨⟨by norm_num [TOLERANCE, sqDist], ?_⟩, ?_⟩
  · norm_num [weld, weldStep, keyIndex, quantize, h6, h14, Prod.ext_iff]
  · norm_num [weld, weldStep, keyIndex, quantize, h3, h0, Prod.ext_iff]

/-- C9, amended. For every vertex list in which every two distinct
vertices are farther apart than `TOLERANCE` in at least one coordinate
(Chebyshev separation — the Euclidean form of the claim is refuted by the
counterexample), the welder keeps every vertex: the deduplicated table has
one entry per input vertex in order — each entry being that vertex's
quantized position — and every original index is remapped to itself. -/
theorem weld_id_of_separated (vs : List Vec3) (h : vs.Pairwise chebFar) :
    weld vs = (vs.map quantize, List.range vs.length) := by
  have hnd : (vs.map quantize).Nodup := by
    rw [List.Nodup, List.pairwise_map]
    exact h.imp quantize_ne_of_chebFar
  have hfold := weld_foldl_of_nodup vs [] [] (by simpa using hnd)
  unfold weld
  rw [hfold]
  simp

/-- Witness for the amended C9 at two Chebyshev-separated vertices. -/
theorem weld_id_of_separated_witness :
    ([((0 : ℚ), (0 : ℚ), (0 : ℚ)), (1, 0, 0)] : List Vec3).Pairwise chebFar ∧
      weld [((0 : ℚ), (0 : ℚ), (0 : ℚ)), (1, 0, 0)] =
        ([((0 : ℚ), (0 : ℚ), (0 : ℚ)), (1, 0, 0)].map quantize, List.range 2) := by
  have hfar : ([((0 : ℚ), (0 : ℚ), (0 : ℚ)), (1, 0, 0)] : List Vec3).Pairwise chebFar := by
    simp only [List.pairwise_cons, List.mem_singleton, List.not_mem_nil, false_implies,
      implies_true, List.Pairwise.nil, and_true]
    intro v hv
    rw [hv]
    left
    norm_num [chebFar, TOLERANCE]
  exact ⟨hfar, weld_id_of_separated _ hfar⟩

/-! ## C10: the loop-tracing walk terminates -/

lemma filter_length_lt {α : Type} {l : List α} {p q : α → Bool} (x : α)
    (hx : x ∈ l) (hpx : p x = true) (hqx : ¬ q x = true)
    (himp : ∀ y, q y = true → p y = true) :
    (l.filter q).length < (l.filter p).length := by
  induction l with
  | nil => cases hx
  | cons a rest ih =>
    rcases List.mem_cons.1 hx with rfl | hx
    · rw [List.filter_cons, List.filter_cons, if_pos hpx, if_neg hqx]
      have : (rest.filter q).length ≤ (rest.filter p).length := by
        rw [← List.countP_eq_length_filter, ← List.countP_eq_length_filter]
        exact List.countP_mono_left fun y _ hy => himp y hy
      simp only [List.length_cons]
      omega
    · rw [List.filter_cons, List.filter_cons]
      by_cases hqa : q a = true
      · rw [if_pos hqa, if_pos (himp a hqa)]
        simp only [List.length_cons]
        have := ih hx
        omega
      · rw [if_neg hqa]
        by_cases hpa : p a = true
        · rw [if_pos hpa]
          have := ih hx
          simp only [List.length_cons]
          omega
        · rw [if_neg hpa]
          exact ih hx

lemma unusedCount_le (B used : List Edge) : unusedCount B used ≤ B.length :=
  List.length_filter_le _ _

lemma unusedCount_lt {B used : List Edge} {c n : ℕ} (hmem : (c, n) ∈ B)
    (h1 : (c, n) ∉ used) (h2 : (n, c) ∉ used) :
    unusedCount B ((c, n) :: (n, c) :: used) < unusedCount B used := by
  refine filter_length_lt (c, n) hmem (decide_eq_true ⟨h1, h2⟩) ?_ ?_
  · intro hq
    obtain ⟨hq1, _⟩ := of_decide_eq_true hq
    exact hq1 (List.mem_cons_self _ _)
  · intro y hy
    obtain ⟨hy1, hy2⟩ := of_decide_eq_true hy
    refine decide_eq_true ⟨?_, ?_⟩
    · exact fun hm => hy1 (List.mem_cons_of_mem _ (List.mem_cons_of_mem _ hm))
    · exact fun hm => hy2 (List.mem_cons_of_mem _ (List.mem_cons_of_mem _ hm))

lemma traceLoop_congr {B : List Edge} {s : ℕ} :
    ∀ (m f1 f2 : ℕ) (used : List Edge) (rl : List ℕ),
      unusedCount B used ≤ m → m < f1 → m < f2 →
      traceLoop B s f1 used rl = traceLoop B s f2 used rl := by
  intro m
  induction m with
  | zero =>
    intro f1 f2 used rl hm h1 h2
    obtain ⟨k1, rfl⟩ : ∃ k, f1 = k + 1 := ⟨f1 - 1, by omega⟩
    obtain ⟨k2, rfl⟩ : ∃ k, f2 = k + 1 := ⟨f2 - 1, by omega⟩
    rcases rl with _ | ⟨curr, rest⟩
    · rfl
    · simp only [traceLoop]
      by_cases hc : curr = s
      · rw [if_pos hc, if_pos hc]
      · rw [if_neg hc, if_neg hc]
        rcases hfn : findNext used curr (adjOf B curr) with _ | nxt
        · rfl
        · exfalso
          obtain ⟨hadj, hu1, hu2⟩ := findNext_spec hfn
          have hmemB : (curr, nxt) ∈ B := mem_adjOf hadj
          have : (curr, nxt) ∈ B.filter fun e => decide (e ∉ used ∧ e.rev ∉ used) :=
            List.mem_filter.2 ⟨hmemB, decide_eq_true ⟨hu1, hu2⟩⟩
          have hpos : 0 < unusedCount B used := by
            unfold unusedCount
            exact List.length_pos.2 (List.ne_nil_of_mem this)
          omega
  | succ m ih =>
    intro f1 f2 used rl hm h1 h2
    obtain ⟨k1, rfl⟩ : ∃ k, f1 = k + 1 := ⟨f1 - 1, by omega⟩
    obtain ⟨k2, rfl⟩ : ∃ k, f2 = k + 1 := ⟨f2 - 1, by omega⟩
    rcases rl with _ | ⟨curr, rest⟩
    · rfl
    · simp only [traceLoop]
      by_cases hc : curr = s
      · rw [if_pos hc, if_pos hc]
      · rw [if_neg hc, if_neg hc]
        rcases hfn : findNext used curr (adjOf B curr) with _ | nxt
        · rfl
        · obtain ⟨hadj, hu1, hu2⟩ := findNext_spec hfn
          have hmemB : (curr, nxt) ∈ B := mem_adjOf hadj
          have hlt := unusedCount_lt hmemB hu1 hu2
          exact ih k1 k2 _ _ (by omega) (by omega) (by omega)

lemma traceAll_congr {B : List Edge} :
    ∀ (seeds : List Edge) (f1 f2 : ℕ) (used : List Edge) (acc : List (List ℕ)),
      B.length < f1 → B.length < f2 →
      traceAll B f1 seeds used acc = traceAll B f2 seeds used acc := by
  intro seeds
  induction seeds with
  | nil => intro f1 f2 used acc _ _; rfl
  | cons e seeds ih =>
    intro f1 f2 used acc h1 h2
    obtain ⟨s, t⟩ := e
    simp only [traceAll]
    by_cases hmem : (s, t) ∈ used
    · rw [if_pos hmem, if_pos hmem]
      exact ih f1 f2 used acc h1 h2
    · rw [if_neg hmem, if_neg hmem]
      have hr : traceLoop B s f1 ((s, t) :: (t, s) :: used) [t, s] =
          traceLoop B s f2 ((s, t) :: (t, s) :: used) [t, s] :=
        traceLoop_congr B.length f1 f2 _ _ (unusedCount_le B _) h1 h2
      rw [hr]
      split
      · exact ih f1 f2 _ _ h1 h2
      · exact ih f1 f2 _ _ h1 h2

/-- C10. The loop-tracing walk of `_find_boundary_loops` terminates for
every finite input: each iteration consumes an unused boundary edge (in both
directions) from the finite boundary set, so fuel one beyond the number of
boundary edges always suffices — running with any larger fuel returns the
same loops. -/
theorem findBoundaryLoops_terminates (ts : List Tri) (k : ℕ) :
    findBoundaryLoopsFuel ts ((boundaryEdges ts).length + 1 + k) = findBoundaryLoops ts := by
  unfold findBoundaryLoops findBoundaryLoopsFuel
  dsimp only
  split
  · rfl
  · exact traceAll_congr _ _ _ _ _ (by omega) (by omega)

/-! ## C3: removing one triangle from a closed mesh -/

section Cycle3

variable {x y z : ℕ} {B : List Edge}

lemma traceLoop_step {s fuel : ℕ} {used : List Edge} {curr : ℕ} {rest : List ℕ} {nxt : ℕ}
    (hcs : ¬ curr = s) (hfn : findNext used curr (adjOf B curr) = some nxt) :
    traceLoop B s (fuel + 1) used (curr :: rest) =
      traceLoop B s fuel ((curr, nxt) :: (nxt, curr) :: used) (nxt :: curr :: rest) := by
  simp only [traceLoop, if_neg hcs, hfn]

lemma traceLoop_stop {s fuel : ℕ} {used : List Edge} {rest : List ℕ} :
    traceLoop B s (fuel + 1) used (s :: rest) = (s :: rest, used) := by
  simp [traceLoop]

lemma traceLoop_cycle3 (hxy : x ≠ y) (hyz : y ≠ z) (hxz : x ≠ z)
    (hay : adjOf B y = [z]) (haz : adjOf B z = [x]) :
    traceLoop B x 4 [(x, y), (y, x)] [y, x] =
      ([x, z, y, x], [(z, x), (x, z), (y, z), (z, y), (x, y), (y, x)]) := by
  have hyx : y ≠ x := hxy.symm
  have hzx : z ≠ x := hxz.symm
  have hzy : z ≠ y := hyz.symm
  have s1 : findNext [(x, y), (y, x)] y (adjOf B y) = some z := by
    rw [hay]
    unfold findNext
    rw [if_pos]
    constructor <;> simp [Prod.ext_iff, hxy, hyx, hyz, hzy, hxz, hzx]
  have s2 : findNext [(y, z), (z, y), (x, y), (y, x)] z (adjOf B z) = some x := by
    rw [haz]
    unfold findNext
    rw [if_pos]
    constructor <;> simp [Prod.ext_iff, hxy, hyx, hyz, hzy, hxz, hzx]
  rw [traceLoop_step hyx s1, traceLoop_step hzx s2, traceLoop_stop]

lemma traceAll_skip {B : List Edge} {fuel : ℕ} :
    ∀ (seeds used : List Edge) (acc : List (List ℕ)),
      (∀ e ∈ seeds, e ∈ used) → traceAll B fuel seeds used acc = acc := by
  intro seeds
  induction seeds with
  | nil => intro used acc _; rfl
  | cons e seeds ih =>
    intro used acc h
    obtain ⟨s, t⟩ := e
    simp only [traceAll]
    rw [if_pos (h _ (List.mem_cons_self _ _))]
    exact ih _ _ fun e he => h e (List.mem_cons_of_mem _ he)

lemma adjOf_perm {B C : List Edge} (h : B.Perm C) (v : ℕ) :
    (adjOf B v).Perm (adjOf C v) := (h.filter _).map _

lemma traceAll_cycle3 {x y z : ℕ} {B Btail : List Edge}
    (hxy : x ≠ y) (hyz : y ≠ z) (hxz : x ≠ z)
    (hperm : B.Perm [(x, y), (y, z), (z, x)]) (hB : B = (x, y) :: Btail) :
    traceAll B 4 B [] [] = [[x, y, z]] := by
  have hyx : y ≠ x := hxy.symm
  have hzx : z ≠ x := hxz.symm
  have hzy : z ≠ y := hyz.symm
  have hay : adjOf B y = [z] := by
    have h2 : adjOf [(x, y), (y, z), (z, x)] y = [z] := by
      simp [adjOf, hxy, hzy]
    exact List.perm_singleton.1 (h2 ▸ adjOf_perm hperm y)
  have haz : adjOf B z = [x] := by
    have h2 : adjOf [(x, y), (y, z), (z, x)] z = [x] := by
      simp [adjOf, hxz, hyz]
    exact List.perm_singleton.1 (h2 ▸ adjOf_perm hperm z)
  have htrace := traceLoop_cycle3 hxy hyz hxz hay haz
  nth_rewrite 2 [hB]
  simp only [traceAll]
  rw [if_neg (List.not_mem_nil _), htrace]
  rw [if_pos ⟨by simp, rfl⟩]
  rw [traceAll_skip]
  · simp
  · intro e he
    have heB : e ∈ B := hB ▸ List.mem_cons_of_mem _ he
    have := hperm.subset heB
    simp only [List.mem_cons, List.not_mem_nil, or_false] at this
    rcases this with rfl | rfl | rfl <;> simp

lemma perm_rot3 {u v w : Edge} : ([u, v, w] : List Edge).Perm [v, w, u] :=
  (List.Perm.swap v u [w]).trans (List.Perm.cons v (List.Perm.swap w u []))

lemma edgeSlots_cons (t : Tri) (R : List Tri) :
    edgeSlots (t :: R) = triEdges t ++ edgeSlots R := by
  simp [edgeSlots]

lemma dirCount_cons (t : Tri) (R : List Tri) (e : Edge) :
    dirCount (t :: R) e = (triEdges t).count e + dirCount R e := by
  rw [dirCount, dirS, edgeSlots_cons, List.count_append]
  rfl

lemma undirCount_cons (t : Tri) (R : List Tri) (e : Edge) :
    undirCount (t :: R) e = ucS (triEdges t) e + undirCount R e := by
  rw [undirCount, ucS, edgeSlots_cons, List.countP_append]
  rfl

lemma boundary_of_removed {t : Tri} {R : List Tri}
    (hclean : ∀ u ∈ t :: R, distinctTri u)
    (horient : ∀ e ∈ edgeSlots (t :: R),
      dirCount (t :: R) e = 1 ∧ dirCount (t :: R) e.rev = 1) :
    ∀ e : Edge, e ∈ boundaryEdges R ↔
      e ∈ [(t.2.1, t.1), (t.1, t.2.2), (t.2.2, t.2.1)] := by
  obtain ⟨hab, hbc, hca⟩ := hclean t (List.mem_cons_self _ _)
  have hcleanR : ∀ u ∈ R, distinctTri u := fun u hu => hclean u (List.mem_cons_of_mem _ hu)
  -- the three directed edges of t occur in the slots of t :: R
  have hmemslots : ∀ d ∈ triEdges t, d ∈ edgeSlots (t :: R) := by
    intro d hd
    rw [edgeSlots_cons]
    exact List.mem_append_left _ hd
  -- forward edges of t are absent from R, reverse edges occur exactly once
  have hfwd : ∀ d ∈ triEdges t, dirCount R d = 0 := by
    intro d hd
    have h1 := (horient d (hmemslots d hd)).1
    rw [dirCount_cons] at h1
    have h2 : 1 ≤ (triEdges t).count d := List.count_pos_iff.2 hd
    omega
  have hrevnot : ∀ d ∈ triEdges t, d.rev ∉ triEdges t := by
    intro d hd hrev
    simp only [triEdges, List.mem_cons, List.not_mem_nil, or_false] at hd hrev
    obtain ⟨h1, h2, h3⟩ : t.1 ≠ t.2.1 ∧ t.2.1 ≠ t.2.2 ∧ t.2.2 ≠ t.1 := ⟨hab, hbc, hca⟩
    rcases hd with rfl | rfl | rfl <;>
      simp only [Edge.rev, Prod.mk.injEq] at hrev <;> tauto
  have hrev1 : ∀ d ∈ triEdges t, dirCount R d.rev = 1 := by
    intro d hd
    have h1 := (horient d (hmemslots d hd)).2
    rw [dirCount_cons, List.count_eq_zero.2 (hrevnot d hd)] at h1
    omega
  intro e
  constructor
  · intro he
    obtain ⟨huc, hdir⟩ := mem_boundaryEdges_iff.1 he
    have hesR : e ∈ edgeSlots R := mem_of_dirS_pos hdir
    have hesT : e ∈ edgeSlots (t :: R) := by
      rw [edgeSlots_cons]
      exact List.mem_append_right _ hesR
    have hene : e.1 ≠ e.2 := edgeSlots_ne hcleanR e hesR
    have huc2 : undirCount (t :: R) e = 2 := by
      have h12 := horient e hesT
      have := ucS_eq_add_of_ne (s := edgeSlots (t :: R)) hene
      show ucS (edgeSlots (t :: R)) e = 2
      rw [this]
      have d1 : dirS (edgeSlots (t :: R)) e = 1 := h12.1
      have d2 : dirS (edgeSlots (t :: R)) e.rev = 1 := h12.2
      omega
    have htE : ucS (triEdges t) e = 1 := by
      have := undirCount_cons t R e
      rw [huc2] at this
      have hucR : undirCount R e = 1 := huc
      omega
    have : ∃ d ∈ triEdges t, d = e ∨ d = e.rev := by
      have hpos : 0 < List.countP (fun d => decide (d = e ∨ d = e.rev)) (triEdges t) := by
        rw [show List.countP (fun d => decide (d = e ∨ d = e.rev)) (triEdges t) =
          ucS (triEdges t) e from rfl, htE]
        omega
      rcases List.countP_pos_iff.1 hpos with ⟨d, hd, hdp⟩
      exact ⟨d, hd, of_decide_eq_true hdp⟩
    rcases this with ⟨d, hd, rfl | hde⟩
    · exfalso
      have := hfwd d hd
      simp only [dirCount, dirS] at this hdir
      omega
    · have : e = d.rev := by rw [hde, Edge.rev_rev]
      subst this
      simp only [triEdges, List.mem_cons, List.not_mem_nil, or_false] at hd
      rcases hd with rfl | rfl | rfl <;> simp [Edge.rev]
  · intro he
    have hd : ∃ d ∈ triEdges t, e = d.rev := by
      simp only [List.mem_cons, List.not_mem_nil, or_false] at he
      rcases he with rfl | rfl | rfl
      · exact ⟨(t.1, t.2.1), by simp [triEdges], rfl⟩
      · exact ⟨(t.2.2, t.1), by simp [triEdges], rfl⟩
      · exact ⟨(t.2.1, t.2.2), by simp [triEdges], rfl⟩
    rcases hd with ⟨d, hdmem, rfl⟩
    have hdir1 : dirCount R d.rev = 1 := hrev1 d hdmem
    have hdir0 : dirCount R d = 0 := hfwd d hdmem
    have hdne : d.1 ≠ d.2 := edgeSlots_ne hclean d (hmemslots d hdmem)
    refine mem_boundaryEdges_iff.2 ⟨?_, by rw [hdir1]⟩
    show ucS (edgeSlots R) d.rev = 1
    rw [ucS_eq_add_of_ne (fun hh => hdne hh.symm), Edge.rev_rev]
    have e1 : dirS (edgeSlots R) d.rev = 1 := hdir1
    have e0 : dirS (edgeSlots R) d = 0 := hdir0
    omega

/-- C3, amended. For every mesh obtained by removing exactly one
triangle from a closed and *consistently oriented* mesh — every directed
edge slot and its reverse each occur exactly once across the triangle list
(the unoriented form of the claim is refuted by the counterexample) —
`_find_boundary_loops` returns exactly one loop, that loop has exactly 3
vertices, namely those of the removed triangle, and `_fill_loop_with_fan`
applied to it returns exactly one triangle whose indices are those three
vertices. -/
theorem removed_triangle_single_loop (t : Tri) (R : List Tri)
    (hclean : ∀ u ∈ t :: R, distinctTri u)
    (horient : ∀ e ∈ edgeSlots (t :: R),
      dirCount (t :: R) e = 1 ∧ dirCount (t :: R) e.rev = 1) :
    ∃ p q r : ℕ, findBoundaryLoops R = [[p, q, r]] ∧
      ({p, q, r} : Finset ℕ) = {t.1, t.2.1, t.2.2} ∧
      fillLoopWithFan [p, q, r] = [(p, r, q)] := by
  obtain ⟨hab, hbc, hca⟩ := hclean t (List.mem_cons_self _ _)
  have hba : t.2.1 ≠ t.1 := hab.symm
  have hac : t.1 ≠ t.2.2 := hca.symm
  have hcb : t.2.2 ≠ t.2.1 := hbc.symm
  have hmem3 := boundary_of_removed hclean horient
  have hnd3 : ([(t.2.1, t.1), (t.1, t.2.2), (t.2.2, t.2.1)] : List Edge).Nodup := by
    simp only [List.nodup_cons, List.mem_cons, List.not_mem_nil, or_false, not_or,
      Prod.mk.injEq, List.nodup_nil, and_true, List.mem_singleton, not_and]
    tauto
  have hperm : (boundaryEdges R).Perm [(t.2.1, t.1), (t.1, t.2.2), (t.2.2, t.2.1)] :=
    (List.perm_ext_iff_of_nodup (boundaryEdges_nodup R) hnd3).2 hmem3
  have hlen3 : (boundaryEdges R).length = 3 := by rw [hperm.length_eq]; rfl
  have hres : ∃ p q r : ℕ, findBoundaryLoops R = [[p, q, r]] ∧
      ({p, q, r} : Finset ℕ) = {t.1, t.2.1, t.2.2} := by
    rcases hh : boundaryEdges R with _ | ⟨e1, Btail⟩
    · rw [hh] at hlen3
      cases hlen3
    · have hBperm : (e1 :: Btail).Perm
          [(t.2.1, t.1), (t.1, t.2.2), (t.2.2, t.2.1)] := hh ▸ hperm
      have hlen' : (e1 :: Btail).length = 3 := by rw [← hh]; exact hlen3
      have hfbl : findBoundaryLoops R = traceAll (e1 :: Btail) 4 (e1 :: Btail) [] [] := by
        unfold findBoundaryLoops findBoundaryLoopsFuel
        dsimp only
        rw [hh, if_neg (List.cons_ne_nil _ _), hlen']
      have he1 : e1 ∈ [(t.2.1, t.1), (t.1, t.2.2), (t.2.2, t.2.1)] :=
        hBperm.subset (List.mem_cons_self _ _)
      simp only [List.mem_cons, List.not_mem_nil, or_false] at he1
      rcases he1 with rfl | rfl | rfl
      · refine ⟨t.2.1, t.1, t.2.2, ?_, ?_⟩
        · rw [hfbl]
          exact traceAll_cycle3 hba hac hbc hBperm rfl
        · ext v
          simp only [Finset.mem_insert, Finset.mem_singleton]
          tauto
      · refine ⟨t.1, t.2.2, t.2.1, ?_, ?_⟩
        · rw [hfbl]
          exact traceAll_cycle3 hac hcb hab (hBperm.trans perm_rot3) rfl
        · ext v
          simp only [Finset.mem_insert, Finset.mem_singleton]
          tauto
      · refine ⟨t.2.2, t.2.1, t.1, ?_, ?_⟩
        · rw [hfbl]
          exact traceAll_cycle3 hcb hba hca (hBperm.trans (perm_rot3.trans perm_rot3)) rfl
        · ext v
          simp only [Finset.mem_insert, Finset.mem_singleton]
          tauto
  rcases hres with ⟨p, q, r, h1, h2⟩
  exact ⟨p, q, r, h1, h2, rfl⟩

end Cycle3

/-- C3 counterexample. A tetrahedron with one face wound inconsistently:
every undirected edge is referenced by exactly two triangles — the claim's
definition of a closed mesh — yet after removing the triangle `(0, 1, 2)`
the boundary-loop finder returns no loop at all (the three surviving
directed boundary edges do not chain into a cycle), not exactly one loop of
3 vertices. -/
theorem removed_triangle_cex :
    (∀ e ∈ edgeSlots [((0 : ℕ), (1 : ℕ), (2 : ℕ)), (0, 1, 3), (1, 2, 3), (0, 2, 3)],
      undirCount [(0, 1, 2), (0, 1, 3), (1, 2, 3), (0, 2, 3)] e = 2) ∧
      findBoundaryLoops [((0 : ℕ), (1 : ℕ), (3 : ℕ)), (1, 2, 3), (0, 2, 3)] = [] := by
  decide

/-- Witness for the amended C3 at a consistently oriented tetrahedron minus
one face. -/
theorem removed_triangle_single_loop_witness :
    (∀ u ∈ [((0 : ℕ), (1 : ℕ), (2 : ℕ)), (0, 2, 3), (0, 3, 1), (1, 3, 2)], distinctTri u) ∧
    (∀ e ∈ edgeSlots [((0 : ℕ), (1 : ℕ), (2 : ℕ)), (0, 2, 3), (0, 3, 1), (1, 3, 2)],
      dirCount [(0, 1, 2), (0, 2, 3), (0, 3, 1), (1, 3, 2)] e = 1 ∧
        dirCount [(0, 1, 2), (0, 2, 3), (0, 3, 1), (1, 3, 2)] e.rev = 1) ∧
    (∃ p q r : ℕ, findBoundaryLoops [(0, 2, 3), (0, 3, 1), (1, 3, 2)] = [[p, q, r]] ∧
      ({p, q, r} : Finset ℕ) = {0, 1, 2} ∧
      fillLoopWithFan [p, q, r] = [(p, r, q)]) :=
  ⟨by decide, by decide,
    removed_triangle_single_loop (0, 1, 2) [(0, 2, 3), (0, 3, 1), (1, 3, 2)]
      (by decide) (by decide)⟩


end KeycapMesh
